import Mathlib

/-!
Verification of ljurk/vlmultiselect (main.go): a query-federation gateway
that broadcasts one request to a cross product of (tenant, storage-node)
endpoints, gathers per-shard results behind a barrier, and merges them
(structural JSON merge, keyed sum-merge, or NDJSON concatenation).

The development shallowly embeds main.go:
  * Go strings are Lean `String`s; `strings.Split` with a one-character
    separator, `strings.TrimSpace` and `strings.HasPrefix` are re-implemented
    structurally over `String.data` (`goSplit`, `goTrim`, `startsWithStr`),
    matching Go's semantics (in particular `strings.Split("", ",") = [""]`).
  * Byte slices flowing through the merge engine are modelled by `Bytes`:
    `Bytes.raw s` stands for bytes with literal text `s` that do not
    unmarshal as the sum-merge payload shape, and `Bytes.enc p` stands for
    bytes that `json.Unmarshal` decodes into payload `p` (the exact
    marshalled text is produced by a simple printer; no theorem depends on
    that text).  Go `int` is modelled by `Int`, with every addition the
    code performs routed through `wrap64` (64-bit two's-complement
    wrap-around, as Go's int arithmetic behaves).
  * Go's map iteration order is randomized; the model realizes one
    admissible order (first-insertion order of the association list).
    Theorems about the sum-merge compare outputs as sets of
    (value, hits) pairs, which is invariant under the iteration order.
  * The NDJSON branch's bufio.Scanner is modelled with its default 64 KiB
    MaxScanTokenSize: a line that long stops the scan with ErrTooLong, and
    since the loop ignores scanner.Err(), the remaining records of that
    shard are dropped.  Spec-side record definitions (spec... names) with
    no size bound serve as the comparison point for the NDJSON claim.
  * The scatter-gather dispatcher is modelled after the barrier: the network
    is an oracle `net : Nat → Endpoint → ShardOutcome` giving the outcome of
    worker `i`'s round-trip to endpoint `i`; `dispatchSlots` is the slot
    array (results, errs) that `wg.Wait` hands to the error scan.
  * The external deep-merge primitive `github.com/qjebbs/go-jsons` is a
    black box (spec section 9); `jsonsMerge` is a placeholder total function
    and no theorem depends on its behaviour.
-/

namespace Vlms

/-! ## Go string primitives -/

/-- strings.Split with a single-character separator (also strings.SplitSeq):
Go returns `[""]` on the empty string and keeps empty fields. -/
def splitOnChar (c : Char) : List Char → List (List Char)
  | [] => [[]]
  | x :: xs =>
    match splitOnChar c xs with
    | [] => [[x]]
    | r :: rs => if x = c then [] :: r :: rs else (x :: r) :: rs

/-- strings.Split / strings.SplitSeq on `String`s, single-character separator. -/
def goSplit (s : String) (c : Char) : List String :=
  (splitOnChar c s.data).map String.mk

/-- The white-space set of Go's strings.TrimSpace (ASCII part of
unicode.IsSpace; no claim exercises the non-ASCII code points). -/
def isSpaceGo (c : Char) : Bool :=
  c = ' ' || c = '\t' || c = '\n' || c = '\x0b' || c = '\x0c' || c = '\r'

/-- strings.TrimSpace. -/
def goTrim (s : String) : String :=
  ⟨((s.data.dropWhile isSpaceGo).reverse.dropWhile isSpaceGo).reverse⟩

/-- List-level test that `pat` is a leading pattern of `s`. -/
def listPfx : List Char → List Char → Bool
  | [], _ => true
  | _ :: _, [] => false
  | a :: as, b :: bs => a = b && listPfx as bs

/-- strings.HasPrefix. -/
def startsWithStr (s pat : String) : Bool :=
  listPfx pat.data s.data

/-! ## Data model (main.go lines 18-42) -/

/-- MergeStrategy (main.go lines 18-23). -/
inductive MergeStrategy where
  | Merge
  | Sum
deriving DecidableEq

/-- Format (main.go lines 25-30). -/
inductive Format where
  | JSON
  | NDJSON
deriving DecidableEq

/-- Endpoint (main.go lines 32-36). -/
structure Endpoint where
  AccountID : String
  ProjectID : String
  URL : String
deriving DecidableEq

/-- Item of the sum-merge payload (main.go lines 59-62): field order Hits
then Value as in the Go struct.  `hits` carries the decoded 64-bit int
value as an integer; every addition the code performs on hits goes through
`wrap64` (Go's int arithmetic wraps at 64 bits). -/
structure Item where
  hits : Int
  value : String
deriving DecidableEq

/-- Payload of the sum-merge (main.go lines 63-65). -/
structure Payload where
  values : List Item
deriving DecidableEq

/-- A byte slice as seen by the merge engine.  `raw s` is bytes with text
`s` that do not unmarshal as `Payload` (for example the bytes `foo`);
`enc p` is bytes that unmarshal into payload `p` (in particular the output
of json.Marshal, and the literal `\x7b\x7d` which decodes to the zero-value
payload with a nil Values slice). -/
inductive Bytes where
  | raw (s : String)
  | enc (p : Payload)
deriving DecidableEq

/-- Model of json.Unmarshal into the Payload shape (main.go lines 67-73).
The error text abstracts Go's json decode error. -/
def decodePayload : Bytes → Except String Payload
  | .raw s => .error ("invalid payload: " ++ s)
  | .enc p => .ok p

/-- JSON string escaping of the printer (model of encoding/json; the exact
text is irrelevant to every theorem). -/
def escapeJSONChar (c : Char) : List Char :=
  if c = '"' || c = '\\' then ['\\', c] else [c]

/-- Printer for a JSON string literal. -/
def marshalString (s : String) : String :=
  "\"" ++ (⟨(s.data.map escapeJSONChar).flatten⟩ : String) ++ "\""

/-- Printer for one item, Go field order (hits, value). -/
def marshalItem (it : Item) : String :=
  "\x7b\"hits\":" ++ toString it.hits ++ ",\"value\":" ++ marshalString it.value ++ "\x7d"

/-- Comma-join of item texts. -/
def marshalItemList : List Item → String
  | [] => ""
  | [it] => marshalItem it
  | it :: rest => marshalItem it ++ "," ++ marshalItemList rest

/-- Printer for a payload (model of json.Marshal at main.go line 90). -/
def marshalPayload (p : Payload) : String :=
  "\x7b\"values\":[" ++ marshalItemList p.values ++ "]\x7d"

/-- The literal text of a byte slice. -/
def textOf : Bytes → String
  | .raw s => s
  | .enc p => marshalPayload p

/-! ## Sum-merge (mergeAndSumJSON, main.go lines 58-91) -/

/-- The two's-complement wrap-around of Go's 64-bit `int`: the result of
storing an integer into an int64 (9223372036854775808 = 2^63,
18446744073709551616 = 2^64). -/
def wrap64 (x : Int) : Int :=
  (x + 9223372036854775808) % 18446744073709551616 - 9223372036854775808

/-- `mergedMap[item.Value] += item.Hits` (main.go lines 77-82) on an
association list: Go's map with a zero default.  The stored value is the
64-bit wrap of the sum, since Go's `+=` on int wraps.  Insertion order of
the list is one admissible iteration order of the Go map. -/
def addHit : List (String × Int) → String → Int → List (String × Int)
  | [], k, v => [(k, wrap64 v)]
  | (a, b) :: rest, k, v =>
    if a = k then (a, wrap64 (b + v)) :: rest else (a, b) :: addHit rest k v

/-- Fold a run of items into the map (one of the two `for` loops at
main.go lines 77-82). -/
def buildMap (items : List Item) (m : List (String × Int)) : List (String × Int) :=
  items.foldl (fun acc it => addHit acc it.value it.hits) m

/-- Rebuild the merged Values slice from the map (main.go lines 85-88),
in the model's iteration order. -/
def mapToItems (m : List (String × Int)) : List Item :=
  m.map (fun kv => ⟨kv.2, kv.1⟩)

/-- The keys of the model map, in insertion order. -/
def keysOf (m : List (String × Int)) : List String :=
  m.map Prod.fst

/-- Lookup in the model map with Go's zero default. -/
def getV : List (String × Int) → String → Int
  | [], _ => 0
  | (a, b) :: rest, k => if a = k then b else getV rest k

/-- The total hits recorded for key `k` across a run of items (the
mathematical sum the spec describes). -/
def sumHits (k : String) (items : List Item) : Int :=
  (items.map (fun it => if it.value = k then it.hits else 0)).sum

/-- The (value, hits) pairs of a payload, for the order-insensitive
comparison the spec prescribes for sum-merge outputs. -/
def pairsOf (p : Payload) : List (String × Int) :=
  p.values.map (fun it => (it.value, it.hits))

/-- mergeAndSumJSON (main.go lines 58-91): unmarshal both payloads, sum
hits keyed by value, marshal the merged payload. -/
def mergeAndSumJSON (a b : Bytes) : Except String Bytes :=
  match decodePayload a with
  | .error e => .error ("unmarshal a: " ++ e)
  | .ok pa =>
    match decodePayload b with
    | .error e => .error ("unmarshal b: " ++ e)
    | .ok pb => .ok (.enc ⟨mapToItems (buildMap pb.values (buildMap pa.values []))⟩)

/-- The external deep-merge primitive github.com/qjebbs/go-jsons used by the
Merge strategy (main.go line 271).  It is outside this repository and the
spec treats it as a black box; this placeholder is a total function and no
theorem of this file depends on its behaviour. -/
def jsonsMerge (a b : Bytes) : Except String Bytes :=
  match a with
  | _ => .ok b

/-! ## Endpoint resolver (parseEndpointsFromFlags, main.go lines 93-113) -/

/-- `strings.Split(strings.TrimSpace(id), ":")` (main.go lines 97, 106, 107). -/
def tenantParts (id : String) : List String :=
  goSplit (goTrim id) ':'

/-- URL normalization (main.go lines 101-103): only the literal `http://`
prefix is recognized. -/
def normalizeNode (node : String) : String :=
  if startsWithStr node "http://" then node else "http://" ++ node

/-- The endpoint built for one (tenant entry, storage node) pair
(main.go lines 105-109): segment 0 is AccountID, segment 1 is ProjectID,
later segments are discarded.  Reached only after the length-at-least-2
check, so the defaults are dead. -/
def mkEndpoint (id node : String) : Endpoint :=
  ⟨(tenantParts id).getD 0 "", (tenantParts id).getD 1 "", normalizeNode node⟩

/-- The error text of main.go line 98. -/
def tenantFormatErr : String :=
  "wrong tenant format, use <tenantID>:<projectID>"

/-- The inner loop of parseEndpointsFromFlags (main.go lines 96-110) over
one storage node: check each tenant entry in order, error on the first
malformed one, otherwise collect the endpoints in tenant order. -/
def endpointsForNode (node : String) : List String → Except String (List Endpoint)
  | [] => .ok []
  | id :: rest =>
    if (tenantParts id).length < 2 then .error tenantFormatErr
    else
      match endpointsForNode node rest with
      | .error e => .error e
      | .ok tail => .ok (mkEndpoint id node :: tail)

/-- The outer loop of parseEndpointsFromFlags (main.go lines 95-111):
nodes in order, all endpoints of node i before those of node i+1. -/
def parseEndpointsList (idEntries : List String) : List String → Except String (List Endpoint)
  | [] => .ok []
  | nd :: rest =>
    match endpointsForNode nd idEntries with
    | .error e => .error e
    | .ok here =>
      match parseEndpointsList idEntries rest with
      | .error e => .error e
      | .ok tail => .ok (here ++ tail)

/-- parseEndpointsFromFlags (main.go lines 93-113). -/
def parseEndpointsFromFlags (ids nodes : String) : Except String (List Endpoint) :=
  parseEndpointsList (goSplit ids ',') (goSplit nodes ',')

/-! ## NDJSON scanner (bufio.Scanner with ScanLines, used at main.go lines 287-291) -/

/-- bufio.MaxScanTokenSize: the default bufio.Scanner buffer limit, 64 KiB.
A line whose byte length reaches this bound makes Scan() stop with
ErrTooLong; the loop at main.go lines 288-291 never checks scanner.Err(),
so the over-long record and every later record of that shard are silently
dropped. -/
def maxScanTokenSize : Nat := 65536

/-- The byte length of a run of characters (Go scans bytes; a Lean Char is
a rune of 1-4 UTF-8 bytes). -/
def byteLen (l : List Char) : Nat :=
  (l.map Char.utf8Size).sum

/-- bufio's dropCR: strip one trailing carriage return from a token. -/
def dropCR (l : List Char) : List Char :=
  match l.getLast? with
  | some '\r' => l.dropLast
  | _ => l

/-- One pass of bufio.Scanner with ScanLines: `acc` is the current token
read so far (reversed) and `n` its byte length, i.e. the bytes buffered
since the last token.  Once `n` reaches maxScanTokenSize with no newline
found, the buffer cannot grow and Scan() returns false with ErrTooLong:
scanning stops and the rest of the payload yields no tokens (the caller
ignores scanner.Err()).  A final token without a trailing newline is still
emitted when it fits; a trailing newline emits no extra empty token.  (At
the one boundary of a final token of exactly maxScanTokenSize bytes ending
at EOF, Go's outcome depends on whether the reader reports EOF together
with the last chunk; the model picks the ErrTooLong outcome.  No theorem's
hypothesis or input touches that boundary.) -/
def splitLinesGo : Nat → List Char → List Char → List (List Char)
  | n, acc, [] => if maxScanTokenSize ≤ n then [] else [dropCR acc.reverse]
  | n, acc, c :: rest =>
    if maxScanTokenSize ≤ n then []
    else if c = '\n' then
      match rest with
      | [] => [dropCR acc.reverse]
      | _ :: _ => dropCR acc.reverse :: splitLinesGo 0 [] rest
    else splitLinesGo (n + c.utf8Size) (c :: acc) rest

/-- The token sequence the scanner loop consumes on `data`: no tokens on
empty input. -/
def goScanLines : List Char → List (List Char)
  | [] => []
  | c :: rest => splitLinesGo 0 [] (c :: rest)

/-- The records the code's scanner actually yields for a shard payload. -/
def recordsOf (s : String) : List String :=
  (goScanLines s.data).map String.mk

/-- The code's NDJSON contribution of one shard: every scanned record
followed by exactly one newline, records in original order. -/
def ndjsonOf (s : String) : String :=
  String.join ((recordsOf s).map (fun r => r ++ "\n"))

/-- The code's NDJSON merge output in closed form: shard contributions
concatenated in shard order. -/
def ndjsonOut (payloads : List String) : String :=
  String.join (payloads.map ndjsonOf)

/-- The newline-delimited records of a payload as the spec's words describe
them, with NO size bound (clearly spec-side: the code's scanner deviates by
bufio's 64 KiB token limit).  Same splitting rules otherwise: tokens end at
a newline, one trailing carriage return is stripped, a final token without
a trailing newline is emitted, a trailing newline emits no empty token. -/
def specSplitLines : List Char → List Char → List (List Char)
  | acc, [] => [dropCR acc.reverse]
  | acc, c :: rest =>
    if c = '\n' then
      match rest with
      | [] => [dropCR acc.reverse]
      | _ :: _ => dropCR acc.reverse :: specSplitLines [] rest
    else specSplitLines (c :: acc) rest

/-- Spec-side token sequence of a payload (no size bound). -/
def specScanLines : List Char → List (List Char)
  | [] => []
  | c :: rest => specSplitLines [] (c :: rest)

/-- Spec-side records of a shard payload, as `String`s. -/
def specRecordsOf (s : String) : List String :=
  (specScanLines s.data).map String.mk

/-- Spec-side NDJSON contribution of one shard: every record followed by
exactly one newline, records in original order. -/
def specNdjsonOf (s : String) : String :=
  String.join ((specRecordsOf s).map (fun r => r ++ "\n"))

/-- The NDJSON merge output the spec's words require: every record of every
shard, shard order, one newline each, no size bound. -/
def ndjsonExpected (payloads : List String) : String :=
  String.join (payloads.map specNdjsonOf)

/-! ## Merge engine (mergeData, main.go lines 263-298) -/

/-- The scanner loop of the NDJSON branch (main.go lines 288-291): write
each token into the buffer followed by one newline. -/
def ndjsonAppendLines : List Char → List (List Char) → List Char
  | buf, [] => buf
  | buf, tok :: rest => ndjsonAppendLines (buf ++ tok ++ ['\n']) rest

/-- The payload loop of the NDJSON branch (main.go lines 286-292). -/
def ndjsonFold : List Bytes → List Char → List Char
  | [], buf => buf
  | b :: rest, buf => ndjsonFold rest (ndjsonAppendLines buf (goScanLines (textOf b).data))

/-- The payload loop of the JSON branch (main.go lines 267-281): fold the
chosen primitive left to right, stopping at the first error, which is
wrapped as at main.go line 279. -/
def foldMergeJSON (strategy : MergeStrategy) : List Bytes → Bytes → Except String Bytes
  | [], acc => .ok acc
  | b :: rest, acc =>
    match (match strategy with
           | .Merge => jsonsMerge acc b
           | .Sum => mergeAndSumJSON acc b) with
    | .error e => .error ("json merge failed: " ++ e)
    | .ok merged => foldMergeJSON strategy rest merged

/-- mergeData (main.go lines 263-298).  The JSON branch starts from the
literal `\x7b\x7d`, which unmarshals to the zero-value payload, hence
`Bytes.enc ⟨[]⟩`. -/
def mergeData (data : List Bytes) (format : Format) (strategy : MergeStrategy) :
    Except String Bytes :=
  match format with
  | .JSON => foldMergeJSON strategy data (.enc ⟨[]⟩)
  | .NDJSON => .ok (.raw ⟨ndjsonFold data []⟩)

/-! ## Scatter-gather dispatcher (getEndpointData, main.go lines 184-261) -/

/-- The outcome of one worker's round-trip to its endpoint, as an oracle:
`transportErr` covers every failure before a status line is read
(http.NewRequest, client.Do, io.ReadAll; main.go lines 215-241), `httpResp`
a fully read response. -/
inductive ShardOutcome where
  | transportErr (msg : String)
  | httpResp (status : Nat) (body : Bytes)

/-- The (results[i], errs[i]) pair worker i leaves behind (main.go lines
207-251): a non-200 status records the response body text as the error
(line 244), a 200 stores the body (line 249). -/
def slotOf : ShardOutcome → Option Bytes × Option String
  | .transportErr m => (none, some m)
  | .httpResp status body =>
    if status = 200 then (some body, none) else (none, some (textOf body))

/-- The slot array built by the `for i, endpoint := range endpoints` loop
(main.go lines 205-252), worker i querying endpoint i. -/
def dispatchSlotsGo (net : Nat → Endpoint → ShardOutcome) (i : Nat) :
    List Endpoint → List (Option Bytes × Option String)
  | [] => []
  | ep :: rest => slotOf (net i ep) :: dispatchSlotsGo net (i + 1) rest

/-- The state of (results, errs) once `wg.Wait()` (main.go line 253) passes. -/
def dispatchSlots (endpoints : List Endpoint) (net : Nat → Endpoint → ShardOutcome) :
    List (Option Bytes × Option String) :=
  dispatchSlotsGo net 0 endpoints

/-- The errs array in slot order. -/
def errsOf (endpoints : List Endpoint) (net : Nat → Endpoint → ShardOutcome) :
    List (Option String) :=
  (dispatchSlots endpoints net).map Prod.snd

/-- getEndpointData after the barrier (main.go lines 255-260): scan errs in
configuration order, fail with the first error found, otherwise return the
results array (a slot's nil default is dead code on the success path). -/
def getEndpointData (endpoints : List Endpoint) (net : Nat → Endpoint → ShardOutcome) :
    Except String (List Bytes) :=
  match (errsOf endpoints net).findSome? id with
  | some e => .error e
  | none => .ok ((dispatchSlots endpoints net).map (fun s => s.1.getD (.raw "")))

/-! ## Gateway handler (makeJSONHandler, main.go lines 158-182) -/

/-- The response the handler writes: http.Error with a status, or a 200
with the merged payload and the route's content type. -/
inductive HandlerResponse where
  | errorResp (status : Nat) (msg : String)
  | okResp (contentType : String) (body : Bytes)
deriving DecidableEq

/-- The content type set per format (main.go lines 162-166). -/
def contentTypeFor : Format → String
  | .JSON => "application/json"
  | .NDJSON => "application/x-ndjson"

/-- The handler body (main.go lines 159-181) parameterized by the merge
engine, to state that a dispatch error is surfaced before any merge
function is consulted.  Both error paths use http.StatusBadRequest = 400. -/
def handlerWith
    (mrg : List Bytes → Format → MergeStrategy → Except String Bytes)
    (format : Format) (strategy : MergeStrategy)
    (endpoints : List Endpoint) (net : Nat → Endpoint → ShardOutcome) : HandlerResponse :=
  match getEndpointData endpoints net with
  | .error e => .errorResp 400 e
  | .ok data =>
    match mrg data format strategy with
    | .error e => .errorResp 400 e
    | .ok merged => .okResp (contentTypeFor format) merged

/-- makeJSONHandler (main.go lines 158-182) with the real merge engine. -/
def makeJSONHandler (format : Format) (strategy : MergeStrategy)
    (endpoints : List Endpoint) (net : Nat → Endpoint → ShardOutcome) : HandlerResponse :=
  handlerWith mergeData format strategy endpoints net

/-! ## Resolver lemmas -/

theorem splitOnChar_ne_nil (c : Char) (l : List Char) : splitOnChar c l ≠ [] := by
  induction l with
  | nil => simp [splitOnChar]
  | cons x xs ih =>
    simp only [splitOnChar]
    cases h : splitOnChar c xs with
    | nil => simp
    | cons r rs => by_cases hx : x = c <;> simp [hx]

theorem goSplit_ne_nil (s : String) (c : Char) : goSplit s c ≠ [] := by
  simpa [goSplit] using splitOnChar_ne_nil c s.data

theorem listPfx_append (p x : List Char) : listPfx p (p ++ x) = true := by
  induction p with
  | nil => rfl
  | cons a as ih => simpa [listPfx] using ih

theorem normalizeNode_startsWith (node : String) :
    startsWithStr (normalizeNode node) "http://" = true := by
  unfold normalizeNode
  by_cases h : startsWithStr node "http://" = true
  · simp [h]
  · rw [if_neg (by simpa using h)]
    show listPfx "http://".data ("http://" ++ node).data = true
    have : ("http://" ++ node).data = "http://".data ++ node.data := rfl
    rw [this]
    exact listPfx_append _ _

theorem normalizeNode_ne_empty (node : String) : normalizeNode node ≠ "" := by
  have h := normalizeNode_startsWith node
  intro he
  rw [he] at h
  exact absurd h (by decide)

theorem endpointsForNode_ok (node : String) (ids : List String)
    (h : ∀ id ∈ ids, 2 ≤ (tenantParts id).length) :
    endpointsForNode node ids = .ok (ids.map (fun id => mkEndpoint id node)) := by
  induction ids with
  | nil => rfl
  | cons id rest ih =>
    have h1 : ¬ (tenantParts id).length < 2 := by
      have := h id (by simp)
      omega
    have h2 := ih (fun i hi => h i (by simp [hi]))
    simp [endpointsForNode, h1, h2]

theorem endpointsForNode_err (node : String) (ids : List String)
    (h : ∃ id ∈ ids, (tenantParts id).length < 2) :
    endpointsForNode node ids = .error tenantFormatErr := by
  induction ids with
  | nil => simp at h
  | cons id rest ih =>
    by_cases h1 : (tenantParts id).length < 2
    · simp [endpointsForNode, h1]
    · obtain ⟨i, hi, hlen⟩ := h
      rcases List.mem_cons.mp hi with h2 | h2
      · exact absurd (h2 ▸ hlen) h1
      · simp [endpointsForNode, h1, ih ⟨i, h2, hlen⟩]

theorem parseEndpointsList_ok (idEntries nodeEntries : List String)
    (h : ∀ id ∈ idEntries, 2 ≤ (tenantParts id).length) :
    parseEndpointsList idEntries nodeEntries =
      .ok (nodeEntries.flatMap (fun nd => idEntries.map (fun id => mkEndpoint id nd))) := by
  induction nodeEntries with
  | nil => rfl
  | cons nd rest ih =>
    simp [parseEndpointsList, endpointsForNode_ok nd idEntries h, ih]

theorem parseEndpointsList_err (idEntries nodeEntries : List String)
    (hbad : ∃ id ∈ idEntries, (tenantParts id).length < 2)
    (hne : nodeEntries ≠ []) :
    parseEndpointsList idEntries nodeEntries = .error tenantFormatErr := by
  cases nodeEntries with
  | nil => exact absurd rfl hne
  | cons nd rest =>
    simp [parseEndpointsList, endpointsForNode_err nd idEntries hbad]

theorem parse_ok_all_valid (ids nodes : String) (l : List Endpoint)
    (h : parseEndpointsFromFlags ids nodes = .ok l) :
    ∀ id ∈ goSplit ids ',', 2 ≤ (tenantParts id).length := by
  by_contra hc
  push_neg at hc
  obtain ⟨id, hid, hlen⟩ := hc
  have herr := parseEndpointsList_err (goSplit ids ',') (goSplit nodes ',')
    ⟨id, hid, by omega⟩ (goSplit_ne_nil nodes ',')
  rw [parseEndpointsFromFlags, herr] at h
  exact Except.noConfusion h

theorem flatMap_singleton_map {α β : Type} (l : List α) (g : α → β) :
    (l.flatMap (fun a => [g a])) = l.map g := by
  induction l with
  | nil => rfl
  | cons a as ih => simp [ih]

/-! ## Claims on the endpoint resolver -/

/-- C5: for every tenant-spec string whose n comma-separated entries each
carry the `tenantID:projectID` separator and every node-spec string of m
comma-separated values, parseEndpointsFromFlags succeeds and returns the
n * m cross-product endpoints, outer loop over nodes, inner loop over
tenants, each with a non-empty URL qualified by the http scheme. -/
theorem c5_resolver_cross_product (ids nodes : String)
    (hvalid : ∀ id ∈ goSplit ids ',', 2 ≤ (tenantParts id).length) :
    ∃ l, parseEndpointsFromFlags ids nodes = .ok l ∧
      l = (goSplit nodes ',').flatMap
            (fun nd => (goSplit ids ',').map (fun id => mkEndpoint id nd)) ∧
      l.length = (goSplit ids ',').length * (goSplit nodes ',').length ∧
      ∀ ep ∈ l, ep.URL ≠ "" ∧ startsWithStr ep.URL "http://" = true := by
  refine ⟨_, parseEndpointsList_ok (goSplit ids ',') (goSplit nodes ',') hvalid, rfl, ?_, ?_⟩
  · rw [List.length_flatMap]
    have hmap : ∀ L : List String,
        List.map (List.length ∘ fun nd => (goSplit ids ',').map (fun id => mkEndpoint id nd)) L =
          List.replicate L.length (goSplit ids ',').length := by
      intro L
      induction L with
      | nil => rfl
      | cons a as ih =>
        simp only [List.map_cons, ih, Function.comp_apply, List.length_map,
          List.replicate_succ, List.length_cons]
    rw [hmap, List.sum_replicate, smul_eq_mul, Nat.mul_comm]
  · intro ep hep
    obtain ⟨nd, _, hin⟩ := List.mem_flatMap.mp hep
    obtain ⟨id, _, heq⟩ := List.mem_map.mp hin
    have hurl : ep.URL = normalizeNode nd := by rw [← heq]; rfl
    rw [hurl]
    exact ⟨normalizeNode_ne_empty nd, normalizeNode_startsWith nd⟩

/-- C5 witness, at the inputs of the repository's own flag-parsing test. -/
theorem c5_witness :
    ∃ l, parseEndpointsFromFlags "1:projA,2:projB" "node1.com,node2.com" = .ok l ∧
      l = (goSplit "node1.com,node2.com" ',').flatMap
            (fun nd => (goSplit "1:projA,2:projB" ',').map (fun id => mkEndpoint id nd)) ∧
      l.length = (goSplit "1:projA,2:projB" ',').length * (goSplit "node1.com,node2.com" ',').length ∧
      ∀ ep ∈ l, ep.URL ≠ "" ∧ startsWithStr ep.URL "http://" = true :=
  c5_resolver_cross_product "1:projA,2:projB" "node1.com,node2.com" (by decide)

/-- C6 counterexample: the claim demands an error whenever the node spec is
empty, but with a valid tenant spec and the empty node spec the parser
SUCCEEDS: Go's strings.Split turns the empty node spec into the single
empty entry, which is normalized to the URL `http://`.  (The running
program never reaches this case only because main rejects empty flags
before calling the parser.) -/
theorem c6_counterexample :
    parseEndpointsFromFlags "1:p" "" = .ok [⟨"1", "p", "http://"⟩] := rfl

/-- C6 amended: parseEndpointsFromFlags returns an error exactly on the
tenant side: whenever some tenant entry lacks the `:` separator, and in
particular when the tenant spec is the empty string (its single empty entry
is malformed).  An empty node spec alone does not make the parser fail;
empty flags are instead rejected in main before parsing. -/
theorem c6_amended (ids nodes : String)
    (hbad : ∃ id ∈ goSplit ids ',', (tenantParts id).length < 2) :
    parseEndpointsFromFlags ids nodes = .error tenantFormatErr :=
  parseEndpointsList_err (goSplit ids ',') (goSplit nodes ',') hbad (goSplit_ne_nil nodes ',')

/-- C6 witness: the empty tenant spec (one empty entry, no separator) makes
the parser fail with the tenant-format error. -/
theorem c6_witness :
    parseEndpointsFromFlags "" "node1.com" = .error tenantFormatErr :=
  c6_amended "" "node1.com" (by decide)

/-- C7 counterexample: an entry that already carries a scheme other than
the literal `http://` is NOT left unchanged: `https://node1.com` gets
`http://` prepended and the produced URL carries two scheme marks. -/
theorem c7_counterexample :
    parseEndpointsFromFlags "1:p" "https://node1.com" =
      .ok [⟨"1", "p", "http://https://node1.com"⟩] := rfl

/-- C7 amended: for every endpoint the parser produces, its URL is the node
entry normalized by the literal-prefix rule of main.go lines 101-103: an
entry already starting with `http://` is unchanged, any other entry (even
one carrying a different scheme such as `https://`) gets `http://`
prepended; so every produced URL starts with `http://` but is not
guaranteed to carry exactly one scheme. -/
theorem c7_amended (ids nodes : String) (l : List Endpoint)
    (h : parseEndpointsFromFlags ids nodes = .ok l) :
    ∀ ep ∈ l, ∃ nd ∈ goSplit nodes ',',
      ep.URL = normalizeNode nd ∧
      (startsWithStr nd "http://" = true → ep.URL = nd) ∧
      (startsWithStr nd "http://" = false → ep.URL = "http://" ++ nd) ∧
      startsWithStr ep.URL "http://" = true := by
  have hvalid := parse_ok_all_valid ids nodes l h
  have hok := parseEndpointsList_ok (goSplit ids ',') (goSplit nodes ',') hvalid
  rw [parseEndpointsFromFlags, hok] at h
  have hl := (Except.ok.injEq _ _).mp h.symm
  intro ep hep
  rw [hl] at hep
  obtain ⟨nd, hnd, hin⟩ := List.mem_flatMap.mp hep
  obtain ⟨id, _, heq⟩ := List.mem_map.mp hin
  have hurl : ep.URL = normalizeNode nd := by rw [← heq]; rfl
  refine ⟨nd, hnd, hurl, ?_, ?_, hurl ▸ normalizeNode_startsWith nd⟩
  · intro hs
    rw [hurl, normalizeNode, if_pos hs]
  · intro hs
    rw [hurl, normalizeNode, if_neg (by simp [hs])]

/-- C7 amended witness: the `https://node2.com` entry of the node spec also
gets `http://` prepended, so the produced URL embeds both schemes. -/
theorem c7_witness :
    ∃ nd ∈ goSplit "node1.com,https://node2.com" ',',
      (⟨"1", "p", "http://https://node2.com"⟩ : Endpoint).URL = normalizeNode nd ∧
      (startsWithStr nd "http://" = true →
        (⟨"1", "p", "http://https://node2.com"⟩ : Endpoint).URL = nd) ∧
      (startsWithStr nd "http://" = false →
        (⟨"1", "p", "http://https://node2.com"⟩ : Endpoint).URL = "http://" ++ nd) ∧
      startsWithStr (⟨"1", "p", "http://https://node2.com"⟩ : Endpoint).URL "http://" = true :=
  c7_amended "1:p" "node1.com,https://node2.com"
    [⟨"1", "p", "http://node1.com"⟩, ⟨"1", "p", "http://https://node2.com"⟩] rfl
    ⟨"1", "p", "http://https://node2.com"⟩ (by decide)

/-- C10: a tenant entry with more than one `:` separator is accepted, not
rejected; the endpoint takes segment 0 as AccountID and segment 1 as
ProjectID and every later segment is discarded (the result mentions only
the first two segments). -/
theorem c10_multi_colon_entry (entry nodes : String)
    (hone : goSplit entry ',' = [entry])
    (h3 : 3 ≤ (tenantParts entry).length) :
    parseEndpointsFromFlags entry nodes =
      .ok ((goSplit nodes ',').map (fun nd =>
        ⟨(tenantParts entry).getD 0 "", (tenantParts entry).getD 1 "", normalizeNode nd⟩)) := by
  have hvalid : ∀ id ∈ goSplit entry ',', 2 ≤ (tenantParts id).length := by
    rw [hone]
    intro id hid
    rw [List.mem_singleton.mp hid]
    omega
  have hok := parseEndpointsList_ok (goSplit entry ',') (goSplit nodes ',') hvalid
  rw [parseEndpointsFromFlags, hok, hone]
  rw [show (fun nd => [entry].map (fun id => mkEndpoint id nd)) =
      (fun nd => [mkEndpoint entry nd]) from rfl]
  rw [flatMap_singleton_map]
  rfl

/-- C10 witness: `1:proj:extra` is accepted and yields AccountID `1`,
ProjectID `proj`, the `extra` segment silently discarded. -/
theorem c10_witness :
    parseEndpointsFromFlags "1:proj:extra" "node1.com" =
      .ok [⟨"1", "proj", "http://node1.com"⟩] :=
  c10_multi_colon_entry "1:proj:extra" "node1.com" rfl (by decide)

/-! ## Dispatcher lemmas -/

theorem dispatchSlotsGo_length (net : Nat → Endpoint → ShardOutcome) (i : Nat)
    (eps : List Endpoint) : (dispatchSlotsGo net i eps).length = eps.length := by
  induction eps generalizing i with
  | nil => rfl
  | cons ep rest ih => simp [dispatchSlotsGo, ih]

theorem dispatchSlotsGo_getElem? (net : Nat → Endpoint → ShardOutcome)
    (eps : List Endpoint) (i j : Nat) :
    (dispatchSlotsGo net i eps)[j]? = (eps[j]?).map (fun ep => slotOf (net (i + j) ep)) := by
  induction eps generalizing i j with
  | nil => simp [dispatchSlotsGo]
  | cons ep rest ih =>
    cases j with
    | zero => simp [dispatchSlotsGo]
    | succ n =>
      simp only [dispatchSlotsGo, List.getElem?_cons_succ, ih (i + 1) n]
      have : i + 1 + n = i + (n + 1) := by omega
      rw [this]

theorem slotOf_exactly_one (o : ShardOutcome) :
    ((slotOf o).1.isSome ∧ (slotOf o).2 = none) ∨
      ((slotOf o).1 = none ∧ (slotOf o).2.isSome) := by
  cases o with
  | transportErr m => right; simp [slotOf]
  | httpResp status body =>
    by_cases h : status = 200
    · left; simp [slotOf, h]
    · right; simp [slotOf, h]

theorem mem_dispatchSlotsGo (net : Nat → Endpoint → ShardOutcome) (i : Nat)
    (eps : List Endpoint) (s : Option Bytes × Option String)
    (hs : s ∈ dispatchSlotsGo net i eps) : ∃ j ep, s = slotOf (net j ep) := by
  induction eps generalizing i with
  | nil => simp [dispatchSlotsGo] at hs
  | cons ep rest ih =>
    rcases List.mem_cons.mp hs with h | h
    · exact ⟨i, ep, h⟩
    · exact ih (i + 1) h

theorem findSome?_first {α : Type} (l : List (Option α)) (i : Nat) (e : α)
    (hbefore : ∀ j, j < i → l[j]? = some none)
    (hi : l[i]? = some (some e)) : l.findSome? id = some e := by
  induction l generalizing i with
  | nil => simp at hi
  | cons x rest ih =>
    cases i with
    | zero =>
      simp only [List.getElem?_cons_zero, Option.some.injEq] at hi
      rw [hi, List.findSome?_cons]
      rfl
    | succ n =>
      have hx : x = none := by
        have h0 := hbefore 0 (Nat.succ_pos n)
        simpa using h0
      subst hx
      rw [List.findSome?_cons]
      exact ih n (fun j hj => by simpa using hbefore (j + 1) (by omega)) (by simpa using hi)

/-! ## Claims on the dispatcher -/

/-- C8: once the barrier passes, the slot array (and so the results and
errs arrays) has exactly one slot per configured endpoint, slot i is the
outcome of worker i's call to endpoint i, and every slot holds exactly one
of payload or error (no slot is unpopulated). -/
theorem c8_slots_invariant (endpoints : List Endpoint)
    (net : Nat → Endpoint → ShardOutcome) :
    (dispatchSlots endpoints net).length = endpoints.length ∧
    ((dispatchSlots endpoints net).map Prod.fst).length = endpoints.length ∧
    (errsOf endpoints net).length = endpoints.length ∧
    (∀ i : Nat, (dispatchSlots endpoints net)[i]? =
      (endpoints[i]?).map (fun ep => slotOf (net i ep))) ∧
    ∀ s ∈ dispatchSlots endpoints net,
      (s.1.isSome ∧ s.2 = none) ∨ (s.1 = none ∧ s.2.isSome) := by
  have hlen := dispatchSlotsGo_length net 0 endpoints
  refine ⟨hlen, by simpa using hlen, by simpa [errsOf] using hlen, ?_, ?_⟩
  · intro i
    simpa using dispatchSlotsGo_getElem? net endpoints 0 i
  · intro s hs
    obtain ⟨j, ep, rfl⟩ := mem_dispatchSlotsGo net 0 endpoints s hs
    exact slotOf_exactly_one (net j ep)

/-- C1: whenever some slot holds an error (transport failure or non-200
status), getEndpointData fails with the error of the lowest-indexed failed
slot — configuration order, regardless of how the other shards fared — and
the handler surfaces exactly that error as a 400 response no matter which
merge engine, format or strategy is configured: the merge engine is never
consulted for the request. -/
theorem c1_first_config_error (endpoints : List Endpoint)
    (net : Nat → Endpoint → ShardOutcome) (i : Nat) (e : String)
    (hbefore : ∀ j, j < i → (errsOf endpoints net)[j]? = some none)
    (hi : (errsOf endpoints net)[i]? = some (some e)) :
    getEndpointData endpoints net = .error e ∧
    (∀ mrg fmt strat, handlerWith mrg fmt strat endpoints net = .errorResp 400 e) ∧
    (∀ fmt strat, makeJSONHandler fmt strat endpoints net = .errorResp 400 e) := by
  have hfind : (errsOf endpoints net).findSome? id = some e :=
    findSome?_first (errsOf endpoints net) i e hbefore hi
  have hget : getEndpointData endpoints net = .error e := by
    rw [getEndpointData, hfind]
  refine ⟨hget, ?_, ?_⟩
  · intro mrg fmt strat
    rw [handlerWith, hget]
  · intro fmt strat
    rw [makeJSONHandler, handlerWith, hget]

/-- C1 witness: slot 0 succeeded with a 200 yet the call fails with slot
1's transport error, the lowest-indexed failed slot. -/
theorem c1_witness :
    getEndpointData [⟨"1", "p", "http://node1.com"⟩, ⟨"2", "q", "http://node2.com"⟩]
      (fun i _ => if i = 0 then .httpResp 200 (.raw "shard data")
                  else .transportErr "connection refused") = .error "connection refused" :=
  (c1_first_config_error
    [⟨"1", "p", "http://node1.com"⟩, ⟨"2", "q", "http://node2.com"⟩]
    (fun i _ => if i = 0 then .httpResp 200 (.raw "shard data")
                else .transportErr "connection refused")
    1 "connection refused"
    (fun j hj => by
      have hj0 : j = 0 := by omega
      subst hj0
      rfl)
    rfl).1

/-! ## NDJSON merge lemmas -/

theorem data_append (a b : String) : (a ++ b).data = a.data ++ b.data := rfl

theorem foldl_append_data (l : List String) (a : String) :
    (l.foldl (· ++ ·) a).data = a.data ++ (l.map String.data).flatten := by
  induction l generalizing a with
  | nil => simp
  | cons s rest ih => simp [List.foldl_cons, ih, data_append]

theorem join_data (l : List String) :
    (String.join l).data = (l.map String.data).flatten := by
  rw [String.join, foldl_append_data]
  rfl

theorem ndjsonOf_data (p : String) :
    (ndjsonOf p).data = ((goScanLines p.data).map (fun t => t ++ ['\n'])).flatten := by
  rw [ndjsonOf, join_data, recordsOf, List.map_map, List.map_map]
  rfl

theorem ndjsonAppendLines_eq (toks : List (List Char)) (buf : List Char) :
    ndjsonAppendLines buf toks = buf ++ (toks.map (fun t => t ++ ['\n'])).flatten := by
  induction toks generalizing buf with
  | nil => simp [ndjsonAppendLines]
  | cons t rest ih => simp [ndjsonAppendLines, ih]

theorem ndjsonFold_eq (data : List Bytes) (buf : List Char) :
    ndjsonFold data buf =
      buf ++ (data.map
        (fun b => ((goScanLines (textOf b).data).map (fun t => t ++ ['\n'])).flatten)).flatten := by
  induction data generalizing buf with
  | nil => simp [ndjsonFold]
  | cons b rest ih => simp [ndjsonFold, ih, ndjsonAppendLines_eq]

theorem mergeData_ndjson_eq (payloads : List String) (strat : MergeStrategy) :
    mergeData (payloads.map .raw) .NDJSON strat = .ok (.raw (ndjsonOut payloads)) := by
  have hdata : ndjsonFold (payloads.map .raw) [] = (ndjsonOut payloads).data := by
    rw [ndjsonFold_eq, List.nil_append, List.map_map, ndjsonOut, join_data, List.map_map]
    apply congrArg List.flatten
    apply List.map_congr_left
    intro p _
    show ((goScanLines (textOf (Bytes.raw p)).data).map (fun t => t ++ ['\n'])).flatten =
      (ndjsonOf p).data
    rw [ndjsonOf_data]
    rfl
  show Except.ok (Bytes.raw ⟨ndjsonFold (payloads.map Bytes.raw) []⟩) =
    Except.ok (Bytes.raw (ndjsonOut payloads))
  rw [hdata]

theorem byteLen_cons (c : Char) (l : List Char) :
    byteLen (c :: l) = c.utf8Size + byteLen l := by
  simp [byteLen]

theorem splitLinesGo_full (n : Nat) (acc l : List Char) (h : maxScanTokenSize ≤ n) :
    splitLinesGo n acc l = [] := by
  cases l with
  | nil => simp [splitLinesGo, h]
  | cons c rest => simp [splitLinesGo, h]

theorem splitLinesGo_cons_ne (n : Nat) (acc : List Char) (c : Char) (rest : List Char)
    (hn : ¬ maxScanTokenSize ≤ n) (hc : c ≠ '\n') :
    splitLinesGo n acc (c :: rest) = splitLinesGo (n + c.utf8Size) (c :: acc) rest := by
  simp only [splitLinesGo, if_neg hn, if_neg hc]

theorem goScanLines_eq_go (l : List Char) (h : l ≠ []) :
    goScanLines l = splitLinesGo 0 [] l := by
  cases l with
  | nil => exact absurd rfl h
  | cons c rest => rfl

theorem splitLinesGo_replicate (k : Nat) :
    ∀ (n : Nat) (acc rest : List Char), maxScanTokenSize ≤ n + k →
      splitLinesGo n acc (List.replicate k 'a' ++ rest) = [] := by
  induction k with
  | zero =>
    intro n acc rest h
    rw [List.replicate_zero, List.nil_append]
    exact splitLinesGo_full n acc rest (by omega)
  | succ m ih =>
    intro n acc rest h
    rw [List.replicate_succ, List.cons_append]
    by_cases hn : maxScanTokenSize ≤ n
    · exact splitLinesGo_full n acc _ hn
    · rw [splitLinesGo_cons_ne n acc 'a' _ hn (by decide)]
      refine ih (n + Char.utf8Size 'a') ('a' :: acc) rest ?_
      have hsz : Char.utf8Size 'a' = 1 := rfl
      omega

theorem specSplitLines_cons_ne (acc : List Char) (c : Char) (rest : List Char)
    (hc : c ≠ '\n') : specSplitLines acc (c :: rest) = specSplitLines (c :: acc) rest := by
  simp only [specSplitLines, if_neg hc]

theorem specSplitLines_cons_nl (acc : List Char) (d : Char) (rest2 : List Char) :
    specSplitLines acc ('\n' :: d :: rest2) =
      dropCR acc.reverse :: specSplitLines [] (d :: rest2) :=
  rfl

theorem specSplitLines_append_newline :
    ∀ p : List Char, p.getLast? ≠ some '\n' → p ≠ [] →
      ∀ acc, specSplitLines acc (p ++ ['\n']) = specSplitLines acc p := by
  intro p
  induction p with
  | nil => intro _ hne; exact absurd rfl hne
  | cons c rest ih =>
    intro hlast _ acc
    cases rest with
    | nil =>
      have hc : c ≠ '\n' := by
        intro h
        exact hlast (by simp [h])
      show specSplitLines acc (c :: ['\n']) = specSplitLines acc [c]
      rw [specSplitLines_cons_ne _ _ _ hc, specSplitLines_cons_ne _ _ _ hc]
      rfl
    | cons d rest2 =>
      have hlast2 : (d :: rest2).getLast? ≠ some '\n' := by
        rwa [List.getLast?_cons_cons] at hlast
      by_cases hc : c = '\n'
      · subst hc
        show specSplitLines acc ('\n' :: (d :: (rest2 ++ ['\n']))) =
          specSplitLines acc ('\n' :: d :: rest2)
        rw [specSplitLines_cons_nl, specSplitLines_cons_nl]
        exact congrArg _ (ih hlast2 (by simp) [])
      · show specSplitLines acc (c :: ((d :: rest2) ++ ['\n'])) =
          specSplitLines acc (c :: (d :: rest2))
        rw [specSplitLines_cons_ne _ _ _ hc, specSplitLines_cons_ne _ _ _ hc]
        exact ih hlast2 (by simp) (c :: acc)

theorem specRecordsOf_append_newline (p : String) (hne : p ≠ "")
    (hlast : p.data.getLast? ≠ some '\n') :
    specRecordsOf (p ++ "\n") = specRecordsOf p := by
  have hd : p.data ≠ [] := by
    intro h
    apply hne
    cases p with
    | mk d => cases h; rfl
  rw [specRecordsOf, specRecordsOf]
  have hpn : (p ++ "\n").data = p.data ++ ['\n'] := rfl
  rw [hpn]
  cases hd2 : p.data with
  | nil => exact absurd hd2 hd
  | cons c rest =>
    have h1 : specScanLines ((c :: rest) ++ ['\n']) =
      specSplitLines [] ((c :: rest) ++ ['\n']) := rfl
    have h2 : specScanLines (c :: rest) = specSplitLines [] (c :: rest) := rfl
    rw [h1, h2, specSplitLines_append_newline (c :: rest) (hd2 ▸ hlast) (by simp) []]

theorem specSplitLines_ne_nil : ∀ (l acc : List Char), specSplitLines acc l ≠ [] := by
  intro l
  induction l with
  | nil =>
    intro acc
    simp [specSplitLines]
  | cons c rest ih =>
    intro acc
    by_cases hc : c = '\n'
    · subst hc
      cases rest with
      | nil => simp [specSplitLines]
      | cons d rs => simp [specSplitLines]
    · rw [specSplitLines_cons_ne acc c rest hc]
      exact ih (c :: acc)

theorem specScanLines_ne_nil (l : List Char) (h : l ≠ []) : specScanLines l ≠ [] := by
  cases l with
  | nil => exact absurd rfl h
  | cons c rest => exact specSplitLines_ne_nil (c :: rest) []

theorem splitLinesGo_eq_spec :
    ∀ (l acc s0 : List Char) (srest : List (List Char)),
      splitOnChar '\n' l = s0 :: srest →
      byteLen acc + byteLen s0 < maxScanTokenSize →
      (∀ seg ∈ srest, byteLen seg < maxScanTokenSize) →
      splitLinesGo (byteLen acc) acc l = specSplitLines acc l := by
  intro l
  induction l with
  | nil =>
    intro acc s0 srest hsp hhead _
    have hsp2 : ([[]] : List (List Char)) = s0 :: srest := hsp
    injection hsp2 with h1 _
    have hb0 : byteLen ([] : List Char) = 0 := rfl
    have hn : ¬ maxScanTokenSize ≤ byteLen acc := by
      rw [← h1] at hhead
      omega
    simp only [splitLinesGo, specSplitLines, if_neg hn]
  | cons c rest ih =>
    intro acc s0 srest hsp hhead hrest
    cases hsp2 : splitOnChar '\n' rest with
    | nil => exact absurd hsp2 (splitOnChar_ne_nil '\n' rest)
    | cons t0 trest =>
      by_cases hc : c = '\n'
      · subst hc
        have hsp3 : splitOnChar '\n' ('\n' :: rest) = [] :: t0 :: trest := by
          simp [splitOnChar, hsp2]
        rw [hsp3] at hsp
        injection hsp with h1 h2
        have hb0 : byteLen ([] : List Char) = 0 := rfl
        have hn : ¬ maxScanTokenSize ≤ byteLen acc := by
          rw [← h1] at hhead
          omega
        cases rest with
        | nil => simp [splitLinesGo, specSplitLines, hn]
        | cons d rs =>
          have hL : splitLinesGo (byteLen acc) acc ('\n' :: d :: rs) =
              dropCR acc.reverse :: splitLinesGo 0 [] (d :: rs) := by
            simp [splitLinesGo, hn]
          rw [hL, specSplitLines_cons_nl]
          refine congrArg _ ?_
          have ht0 : byteLen t0 < maxScanTokenSize := by
            refine hrest t0 ?_
            rw [← h2]
            exact List.mem_cons_self _ _
          exact ih [] t0 trest hsp2 (by rw [hb0]; omega)
            (fun seg hseg => hrest seg (by rw [← h2]; exact List.mem_cons_of_mem _ hseg))
      · have hsp3 : splitOnChar '\n' (c :: rest) = (c :: t0) :: trest := by
          simp only [splitOnChar, hsp2, if_neg hc]
        rw [hsp3] at hsp
        injection hsp with h1 h2
        have hsz : 0 < c.utf8Size := Char.utf8Size_pos c
        have hbl : byteLen (c :: t0) = c.utf8Size + byteLen t0 := byteLen_cons c t0
        rw [← h1] at hhead
        have hn : ¬ maxScanTokenSize ≤ byteLen acc := by
          rw [hbl] at hhead
          omega
        rw [splitLinesGo_cons_ne (byteLen acc) acc c rest hn hc,
          specSplitLines_cons_ne acc c rest hc]
        have hadd : byteLen acc + c.utf8Size = byteLen (c :: acc) := by
          rw [byteLen_cons]
          omega
        rw [hadd]
        refine ih (c :: acc) t0 trest hsp2 ?_ (fun seg hseg => hrest seg (h2 ▸ hseg))
        rw [byteLen_cons, hbl] at *
        omega

theorem goScanLines_eq_spec (l : List Char)
    (h : ∀ seg ∈ splitOnChar '\n' l, byteLen seg < maxScanTokenSize) :
    goScanLines l = specScanLines l := by
  cases l with
  | nil => rfl
  | cons c rest =>
    show splitLinesGo 0 [] (c :: rest) = specSplitLines [] (c :: rest)
    cases hsp : splitOnChar '\n' (c :: rest) with
    | nil => exact absurd hsp (splitOnChar_ne_nil '\n' (c :: rest))
    | cons s0 srest =>
      have hs0 : byteLen s0 < maxScanTokenSize := by
        refine h s0 ?_
        rw [hsp]
        exact List.mem_cons_self _ _
      have hb0 : byteLen ([] : List Char) = 0 := rfl
      exact splitLinesGo_eq_spec (c :: rest) [] s0 srest hsp (by rw [hb0]; omega)
        (fun seg hseg => h seg (by rw [hsp]; exact List.mem_cons_of_mem _ hseg))

theorem ndjsonOf_eq_spec (p : String)
    (h : ∀ seg ∈ splitOnChar '\n' p.data, byteLen seg < maxScanTokenSize) :
    ndjsonOf p = specNdjsonOf p := by
  rw [ndjsonOf, specNdjsonOf, recordsOf, specRecordsOf, goScanLines_eq_spec p.data h]

theorem specNdjsonOf_ne_empty (p : String) (h : p.data ≠ []) : specNdjsonOf p ≠ "" := by
  intro he
  have hd : (specNdjsonOf p).data = [] := by
    rw [he]
  rw [specNdjsonOf, join_data, specRecordsOf, List.map_map, List.map_map] at hd
  cases hsc : specScanLines p.data with
  | nil => exact specScanLines_ne_nil p.data h hsc
  | cons t ts =>
    rw [hsc] at hd
    simp only [List.map_cons, List.flatten_cons, List.append_eq_nil] at hd
    have ht : t ++ ['\n'] = [] := hd.1
    simp at ht

theorem ndjsonExpected_singleton (p : String) : ndjsonExpected [p] = specNdjsonOf p := rfl

/-! ## Claims on the NDJSON merge -/

/-- C2 counterexample: a shard whose first line is maxScanTokenSize (64 KiB)
bytes long.  bufio.Scanner stops with ErrTooLong before yielding any token,
the loop at main.go lines 288-291 never checks scanner.Err(), and the
merged output is EMPTY — although the shard holds records (the long line
and `rec2`) that the claim requires to appear in the output, each followed
by a newline (ndjsonExpected of the shard is the claim's nonempty
concatenation). -/
theorem c2_counterexample :
    mergeData [.raw ⟨List.replicate maxScanTokenSize 'a' ++ '\n' :: "rec2\n".data⟩]
      .NDJSON .Merge = .ok (.raw "") ∧
    ndjsonExpected [⟨List.replicate maxScanTokenSize 'a' ++ '\n' :: "rec2\n".data⟩] ≠ "" := by
  constructor
  · have h1 : goScanLines (List.replicate maxScanTokenSize 'a' ++ '\n' :: "rec2\n".data) = [] := by
      rw [goScanLines_eq_go _ (by
        intro hnil
        rcases List.append_eq_nil.mp hnil with ⟨_, h2⟩
        exact List.cons_ne_nil _ _ h2)]
      exact splitLinesGo_replicate maxScanTokenSize 0 [] _ (by omega)
    show Except.ok (Bytes.raw ⟨ndjsonFold
      [.raw ⟨List.replicate maxScanTokenSize 'a' ++ '\n' :: "rec2\n".data⟩] []⟩) =
      Except.ok (Bytes.raw "")
    rw [show ndjsonFold
        [Bytes.raw ⟨List.replicate maxScanTokenSize 'a' ++ '\n' :: "rec2\n".data⟩] [] =
      ndjsonAppendLines []
        (goScanLines (List.replicate maxScanTokenSize 'a' ++ '\n' :: "rec2\n".data)) from rfl, h1]
    rfl
  · rw [ndjsonExpected_singleton]
    apply specNdjsonOf_ne_empty
    intro hnil
    rcases List.append_eq_nil.mp hnil with ⟨_, h2⟩
    exact List.cons_ne_nil _ _ h2

/-- C2 amended: for shards whose newline-delimited lines are all shorter
than bufio's MaxScanTokenSize (65536 bytes), mergeData under format NDJSON
(any strategy) returns exactly the concatenation, in shard order, of every
shard's newline-delimited records, each record followed by exactly one
newline, records within a shard in original order, with no deduplication
or reordering (ndjsonExpected is by definition that concatenation); a
payload whose last record lacks the trailing newline yields the very same
records as its newline-terminated form — the record still contributes and
no empty record appears — and an empty payload contributes nothing.  A
shard containing a line of 65536 bytes or more is instead silently
truncated (see the counterexample): the scanner stops with ErrTooLong,
which the loop ignores, dropping that record and every later record of the
shard. -/
theorem c2_ndjson_concat (payloads : List String) (strat : MergeStrategy) (p : String)
    (hshort : ∀ q ∈ payloads, ∀ seg ∈ splitOnChar '\n' q.data, byteLen seg < maxScanTokenSize)
    (hne : p ≠ "") (hlast : p.data.getLast? ≠ some '\n') :
    mergeData (payloads.map .raw) .NDJSON strat = .ok (.raw (ndjsonExpected payloads)) ∧
    specRecordsOf (p ++ "\n") = specRecordsOf p ∧
    specNdjsonOf "" = "" := by
  refine ⟨?_, specRecordsOf_append_newline p hne hlast, rfl⟩
  rw [mergeData_ndjson_eq payloads strat]
  have hout : ndjsonOut payloads = ndjsonExpected payloads := by
    rw [ndjsonOut, ndjsonExpected]
    exact congrArg String.join
      (List.map_congr_left (fun q hq => ndjsonOf_eq_spec q (hshort q hq)))
  rw [hout]

/-- C2 witness: two short-line shards, the second without a trailing
newline; the merged output has one newline after every record, shard order
kept. -/
theorem c2_witness :
    mergeData (["alpha\nbeta\n", "gamma"].map .raw) .NDJSON .Merge =
      .ok (.raw (ndjsonExpected ["alpha\nbeta\n", "gamma"])) ∧
    specRecordsOf ("gamma" ++ "\n") = specRecordsOf "gamma" ∧
    specNdjsonOf "" = "" :=
  c2_ndjson_concat ["alpha\nbeta\n", "gamma"] .Merge "gamma" (by decide) (by decide) (by decide)

/-! ## Sum-merge lemmas -/

theorem wrap64_add_left (x y : Int) : wrap64 (wrap64 x + y) = wrap64 (x + y) := by
  unfold wrap64
  omega

theorem wrap64_wrap64 (x : Int) : wrap64 (wrap64 x) = wrap64 x := by
  unfold wrap64
  omega

theorem getV_addHit_self (m : List (String × Int)) (k : String) (v : Int) :
    getV (addHit m k v) k = wrap64 (getV m k + v) := by
  induction m with
  | nil =>
    show getV [(k, wrap64 v)] k = wrap64 (getV [] k + v)
    have h0 : getV [] k = (0 : Int) := rfl
    rw [h0, Int.zero_add]
    simp [getV]
  | cons ab rest ih =>
    obtain ⟨a, b⟩ := ab
    by_cases hak : a = k
    · have h1 : addHit ((a, b) :: rest) k v = (a, wrap64 (b + v)) :: rest := by
        simp only [addHit, if_pos hak]
      rw [h1]
      simp only [getV, if_pos hak]
    · have h1 : addHit ((a, b) :: rest) k v = (a, b) :: addHit rest k v := by
        simp only [addHit, if_neg hak]
      rw [h1]
      simp only [getV, if_neg hak]
      exact ih

theorem getV_addHit_ne (m : List (String × Int)) (k : String) (v : Int) (q : String)
    (h : q ≠ k) : getV (addHit m k v) q = getV m q := by
  have hkq : k ≠ q := fun he => h he.symm
  induction m with
  | nil =>
    show getV [(k, wrap64 v)] q = getV [] q
    simp only [getV, if_neg hkq]
  | cons ab rest ih =>
    obtain ⟨a, b⟩ := ab
    by_cases hak : a = k
    · have h1 : addHit ((a, b) :: rest) k v = (a, wrap64 (b + v)) :: rest := by
        simp only [addHit, if_pos hak]
      have haq : a ≠ q := fun he => h (he ▸ hak)
      rw [h1]
      simp only [getV, if_neg haq]
    · have h1 : addHit ((a, b) :: rest) k v = (a, b) :: addHit rest k v := by
        simp only [addHit, if_neg hak]
      rw [h1]
      by_cases haq : a = q
      · simp only [getV, if_pos haq]
      · simp only [getV, if_neg haq]
        exact ih

theorem wrap64_getV_addHit (m : List (String × Int)) (k : String) (v : Int) (q : String)
    (h : wrap64 (getV m q) = getV m q) :
    wrap64 (getV (addHit m k v) q) = getV (addHit m k v) q := by
  by_cases hq : q = k
  · subst hq
    rw [getV_addHit_self, wrap64_wrap64]
  · rw [getV_addHit_ne m k v q hq]
    exact h

theorem keysOf_addHit (m : List (String × Int)) (k : String) (v : Int) :
    keysOf (addHit m k v) = if k ∈ keysOf m then keysOf m else keysOf m ++ [k] := by
  induction m with
  | nil =>
    rw [if_neg (by simp [keysOf])]
    rfl
  | cons ab rest ih =>
    obtain ⟨a, b⟩ := ab
    by_cases hak : a = k
    · have h1 : addHit ((a, b) :: rest) k v = (a, wrap64 (b + v)) :: rest := by
        simp only [addHit, if_pos hak]
      have hmem : k ∈ keysOf ((a, b) :: rest) := by
        show k ∈ a :: keysOf rest
        exact hak ▸ List.mem_cons_self a (keysOf rest)
      rw [h1, if_pos hmem]
      rfl
    · have h1 : addHit ((a, b) :: rest) k v = (a, b) :: addHit rest k v := by
        simp only [addHit, if_neg hak]
      have hkc : keysOf ((a, b) :: addHit rest k v) = a :: keysOf (addHit rest k v) := rfl
      have hkc2 : keysOf ((a, b) :: rest) = a :: keysOf rest := rfl
      rw [h1, hkc, ih, hkc2]
      by_cases hmem : k ∈ keysOf rest
      · rw [if_pos hmem, if_pos (List.mem_cons_of_mem a hmem)]
      · have hnotc : ¬ k ∈ a :: keysOf rest := by
          simp only [List.mem_cons, not_or]
          exact ⟨fun he => hak he.symm, hmem⟩
        rw [if_neg hmem, if_neg hnotc]
        rfl

theorem mem_keysOf_addHit (m : List (String × Int)) (k : String) (v : Int) (q : String) :
    q ∈ keysOf (addHit m k v) ↔ q ∈ keysOf m ∨ q = k := by
  rw [keysOf_addHit]
  by_cases hmem : k ∈ keysOf m
  · simp only [if_pos hmem]
    constructor
    · exact Or.inl
    · rintro (h | rfl)
      · exact h
      · exact hmem
  · simp [if_neg hmem]

theorem keysOf_addHit_nodup (m : List (String × Int)) (k : String) (v : Int)
    (h : (keysOf m).Nodup) : (keysOf (addHit m k v)).Nodup := by
  rw [keysOf_addHit]
  by_cases hmem : k ∈ keysOf m
  · simpa [hmem] using h
  · rw [if_neg hmem]
    exact h.append (List.nodup_singleton k) (List.disjoint_singleton.mpr hmem)

theorem sumHits_cons (k : String) (it : Item) (its : List Item) :
    sumHits k (it :: its) = (if it.value = k then it.hits else 0) + sumHits k its := by
  simp [sumHits]

theorem sumHits_append (k : String) (xs ys : List Item) :
    sumHits k (xs ++ ys) = sumHits k xs + sumHits k ys := by
  simp [sumHits]

theorem sumHits_perm (k : String) {xs ys : List Item} (h : xs.Perm ys) :
    sumHits k xs = sumHits k ys :=
  (h.map _).sum_eq

theorem sumHits_zero_of_not_mem (k : String) (items : List Item)
    (h : k ∉ items.map Item.value) : sumHits k items = 0 := by
  induction items with
  | nil => rfl
  | cons it its ih =>
    simp only [List.map_cons, List.mem_cons, not_or] at h
    rw [sumHits_cons, if_neg (fun he => h.1 he.symm), ih h.2, Int.add_zero]

theorem getV_buildMap (items : List Item) (m : List (String × Int)) (k : String)
    (hw : wrap64 (getV m k) = getV m k) :
    getV (buildMap items m) k = wrap64 (getV m k + sumHits k items) := by
  induction items generalizing m with
  | nil =>
    show getV m k = wrap64 (getV m k + sumHits k [])
    rw [show sumHits k [] = 0 from rfl, Int.add_zero, hw]
  | cons it its ih =>
    have hstep : buildMap (it :: its) m = buildMap its (addHit m it.value it.hits) := rfl
    rw [hstep, ih (addHit m it.value it.hits) (wrap64_getV_addHit m it.value it.hits k hw),
      sumHits_cons]
    by_cases h : it.value = k
    · rw [if_pos h, h, getV_addHit_self, wrap64_add_left, Int.add_assoc]
    · rw [if_neg h, getV_addHit_ne m it.value it.hits k (fun he => h he.symm), Int.zero_add]

theorem wrap64_getV_buildMap (items : List Item) (m : List (String × Int)) (q : String)
    (hw : wrap64 (getV m q) = getV m q) :
    wrap64 (getV (buildMap items m) q) = getV (buildMap items m) q := by
  induction items generalizing m with
  | nil => exact hw
  | cons it its ih =>
    exact ih (addHit m it.value it.hits) (wrap64_getV_addHit m it.value it.hits q hw)

theorem mem_keysOf_buildMap (items : List Item) (m : List (String × Int)) (k : String) :
    k ∈ keysOf (buildMap items m) ↔ k ∈ keysOf m ∨ k ∈ items.map Item.value := by
  induction items generalizing m with
  | nil => simp [buildMap]
  | cons it its ih =>
    have hstep : buildMap (it :: its) m = buildMap its (addHit m it.value it.hits) := rfl
    rw [hstep, ih, mem_keysOf_addHit]
    simp only [List.map_cons, List.mem_cons]
    constructor
    · rintro ((h | h) | h)
      · exact Or.inl h
      · exact Or.inr (Or.inl h)
      · exact Or.inr (Or.inr h)
    · rintro (h | h | h)
      · exact Or.inl (Or.inl h)
      · exact Or.inl (Or.inr h)
      · exact Or.inr h

theorem keysOf_buildMap_nodup (items : List Item) (m : List (String × Int))
    (h : (keysOf m).Nodup) : (keysOf (buildMap items m)).Nodup := by
  induction items generalizing m with
  | nil => exact h
  | cons it its ih =>
    exact ih (addHit m it.value it.hits) (keysOf_addHit_nodup m it.value it.hits h)

theorem mapToItems_value_map (m : List (String × Int)) :
    (mapToItems m).map Item.value = keysOf m := by
  rw [mapToItems, keysOf, List.map_map]
  rfl

theorem mem_mapToItems (m : List (String × Int)) (it : Item) :
    it ∈ mapToItems m ↔ (it.value, it.hits) ∈ m := by
  rw [mapToItems, List.mem_map]
  constructor
  · rintro ⟨kv, hkv, rfl⟩
    exact hkv
  · intro h
    exact ⟨(it.value, it.hits), h, by cases it; rfl⟩

theorem pairsOf_mapToItems (m : List (String × Int)) :
    pairsOf ⟨mapToItems m⟩ = m := by
  show (mapToItems m).map (fun it => (it.value, it.hits)) = m
  rw [mapToItems, List.map_map]
  have : ((fun it : Item => (it.value, it.hits)) ∘ fun kv : String × Int => Item.mk kv.2 kv.1) =
      fun kv : String × Int => (kv.1, kv.2) := rfl
  rw [this]
  exact List.map_id'' (fun _ => rfl) m

theorem mem_keysOf_iff (m : List (String × Int)) (k : String) :
    k ∈ keysOf m ↔ ∃ v, (k, v) ∈ m := by
  rw [keysOf, List.mem_map]
  constructor
  · rintro ⟨⟨a, b⟩, hab, rfl⟩
    exact ⟨b, hab⟩
  · rintro ⟨v, hv⟩
    exact ⟨(k, v), hv, rfl⟩

theorem getV_of_mem (m : List (String × Int)) (k : String) (v : Int)
    (hnd : (keysOf m).Nodup) (hm : (k, v) ∈ m) : getV m k = v := by
  induction m with
  | nil => simp at hm
  | cons ab rest ih =>
    obtain ⟨a, b⟩ := ab
    simp only [keysOf, List.map_cons, List.nodup_cons] at hnd
    rcases List.mem_cons.mp hm with h | h
    · obtain ⟨hk, hv⟩ := Prod.mk.inj h
      simp only [getV, if_pos hk.symm]
      exact hv.symm
    · have hak : a ≠ k := by
        intro he
        apply hnd.1
        have hr : k ∈ keysOf rest := (mem_keysOf_iff rest k).mpr ⟨v, h⟩
        show a ∈ List.map Prod.fst rest
        exact he ▸ hr
      simp only [getV, if_neg hak]
      exact ih hnd.2 h

theorem sumHits_mapToItems (m : List (String × Int)) (k : String)
    (hnd : (keysOf m).Nodup) : sumHits k (mapToItems m) = getV m k := by
  induction m with
  | nil => rfl
  | cons ab rest ih =>
    obtain ⟨a, b⟩ := ab
    simp only [keysOf, List.map_cons, List.nodup_cons] at hnd
    have hrest := ih hnd.2
    by_cases hak : a = k
    · subst hak
      have hzero : sumHits a (mapToItems rest) = 0 := by
        apply sumHits_zero_of_not_mem
        rw [mapToItems_value_map]
        exact hnd.1
      show sumHits a (⟨b, a⟩ :: mapToItems rest) = getV ((a, b) :: rest) a
      rw [sumHits_cons, hzero, getV, if_pos rfl]
      simp
    · show sumHits k (⟨b, a⟩ :: mapToItems rest) = getV ((a, b) :: rest) k
      rw [sumHits_cons, getV, if_neg hak, hrest]
      simp [hak]

theorem pair_mem_char (M : List (String × Int)) (keyset : List String) (tgt : String → Int)
    (hnd : (keysOf M).Nodup)
    (hget : ∀ k, getV M k = tgt k)
    (hmem : ∀ k, k ∈ keysOf M ↔ k ∈ keyset) :
    ∀ k v, (k, v) ∈ M ↔ (k ∈ keyset ∧ v = tgt k) := by
  intro k v
  constructor
  · intro hx
    refine ⟨(hmem k).mp ((mem_keysOf_iff M k).mpr ⟨v, hx⟩), ?_⟩
    rw [← hget k]
    exact (getV_of_mem M k v hnd hx).symm
  · rintro ⟨hk, rfl⟩
    obtain ⟨v2, hv2⟩ := (mem_keysOf_iff M k).mp ((hmem k).mpr hk)
    have hgv := getV_of_mem M k v2 hnd hv2
    rw [← hget k, hgv]
    exact hv2

theorem mergeAndSumJSON_enc (M : List (String × Int)) (p : Payload)
    (hnd : (keysOf M).Nodup) (hw : ∀ q, wrap64 (getV M q) = getV M q) :
    ∃ M2, mergeAndSumJSON (.enc ⟨mapToItems M⟩) (.enc p) = .ok (.enc ⟨mapToItems M2⟩) ∧
      (keysOf M2).Nodup ∧
      (∀ q, wrap64 (getV M2 q) = getV M2 q) ∧
      (∀ k, getV M2 k = wrap64 (getV M k + sumHits k p.values)) ∧
      (∀ k, k ∈ keysOf M2 ↔ k ∈ keysOf M ∨ k ∈ p.values.map Item.value) := by
  have hzero : ∀ q, wrap64 (getV ([] : List (String × Int)) q) =
      getV ([] : List (String × Int)) q := by
    intro q
    show wrap64 0 = 0
    rfl
  have hwB : ∀ q, wrap64 (getV (buildMap (mapToItems M) []) q) =
      getV (buildMap (mapToItems M) []) q :=
    fun q => wrap64_getV_buildMap (mapToItems M) [] q (hzero q)
  have hB : ∀ k, getV (buildMap (mapToItems M) []) k = getV M k := by
    intro k
    rw [getV_buildMap (mapToItems M) [] k (hzero k), sumHits_mapToItems M k hnd]
    show wrap64 (0 + getV M k) = getV M k
    rw [Int.zero_add]
    exact hw k
  refine ⟨buildMap p.values (buildMap (mapToItems M) []), rfl, ?_, ?_, ?_, ?_⟩
  · exact keysOf_buildMap_nodup _ _ (keysOf_buildMap_nodup _ _ (by simp [keysOf]))
  · exact fun q => wrap64_getV_buildMap p.values _ q (hwB q)
  · intro k
    rw [getV_buildMap p.values _ k (hwB k), hB k]
  · intro k
    rw [mem_keysOf_buildMap, mem_keysOf_buildMap, mapToItems_value_map]
    simp [keysOf]

theorem foldSum_ok (ps : List Payload) :
    ∀ M, (keysOf M).Nodup → (∀ q, wrap64 (getV M q) = getV M q) →
      ∃ M2, foldMergeJSON .Sum (ps.map .enc) (.enc ⟨mapToItems M⟩) = .ok (.enc ⟨mapToItems M2⟩) ∧
        (keysOf M2).Nodup ∧
        (∀ q, wrap64 (getV M2 q) = getV M2 q) ∧
        (∀ k, getV M2 k = wrap64 (getV M k + sumHits k (ps.flatMap Payload.values))) ∧
        (∀ k, k ∈ keysOf M2 ↔ k ∈ keysOf M ∨ k ∈ (ps.flatMap Payload.values).map Item.value) := by
  induction ps with
  | nil =>
    intro M hnd hw
    refine ⟨M, rfl, hnd, hw, ?_, ?_⟩
    · intro k
      rw [show (([] : List Payload).flatMap Payload.values) = [] from rfl,
        show sumHits k [] = 0 from rfl, Int.add_zero]
      exact (hw k).symm
    · intro k
      simp
  | cons p rest ih =>
    intro M hnd hw
    obtain ⟨M2, heq, hnd2, hw2, hget2, hmem2⟩ := mergeAndSumJSON_enc M p hnd hw
    obtain ⟨M3, heq3, hnd3, hw3, hget3, hmem3⟩ := ih M2 hnd2 hw2
    have hstep : foldMergeJSON .Sum ((p :: rest).map .enc) (.enc ⟨mapToItems M⟩) =
        foldMergeJSON .Sum (rest.map .enc) (.enc ⟨mapToItems M2⟩) := by
      show (match mergeAndSumJSON (.enc ⟨mapToItems M⟩) (.enc p) with
            | .error e => Except.error ("json merge failed: " ++ e)
            | .ok merged => foldMergeJSON .Sum (rest.map .enc) merged) = _
      rw [heq]
    refine ⟨M3, by rw [hstep]; exact heq3, hnd3, hw3, ?_, ?_⟩
    · intro k
      rw [hget3 k, hget2 k, wrap64_add_left, Int.add_assoc, List.flatMap_cons, sumHits_append]
    · intro k
      rw [hmem3 k, hmem2 k, List.flatMap_cons]
      simp only [List.map_append, List.mem_append]
      tauto

/-! ## Claims on the sum-merge -/

/-- C3 counterexample: two shards conforming to the expected shape, each
with the single entry value `A`, hits 2^62 = 4611686018427387904.  Go's
`mergedMap[item.Value] += item.Hits` is 64-bit int addition and wraps, so
the program returns hits -9223372036854775808 (-2^63) for key A, while the
mathematical cross-shard sum the claim demands is 9223372036854775808
(2^63). -/
theorem c3_counterexample :
    mergeData ([⟨[⟨4611686018427387904, "A"⟩]⟩, ⟨[⟨4611686018427387904, "A"⟩]⟩].map .enc)
      .JSON .Sum = .ok (.enc ⟨[⟨-9223372036854775808, "A"⟩]⟩) ∧
    (-9223372036854775808 : Int) ≠ sumHits "A"
      (([⟨[⟨4611686018427387904, "A"⟩]⟩,
         ⟨[⟨4611686018427387904, "A"⟩]⟩] : List Payload).flatMap Payload.values) := by
  constructor
  · rfl
  · decide

/-- C3 amended: over payloads of the expected shape, mergeData with
strategy Sum produces a payload with exactly one entry per distinct value
key (the key list is duplicate-free and holds exactly the keys occurring
across all shards), each entry's hits being the 64-bit two's-complement
wrap-around of the sum of hits over every entry with that key in every
shard (Go's int addition wraps; without overflow this is the plain sum, as
the witness's 23 + 23 = 46 shows); and the result is shard-order
independent when compared as a set of (value, hits) pairs. -/
theorem c3_sum_merge (ps ps2 : List Payload) (hperm : ps.Perm ps2) :
    ∃ q q2,
      mergeData (ps.map .enc) .JSON .Sum = .ok (.enc q) ∧
      mergeData (ps2.map .enc) .JSON .Sum = .ok (.enc q2) ∧
      (q.values.map Item.value).Nodup ∧
      (∀ k, k ∈ q.values.map Item.value ↔ k ∈ (ps.flatMap Payload.values).map Item.value) ∧
      (∀ it ∈ q.values, it.hits = wrap64 (sumHits it.value (ps.flatMap Payload.values))) ∧
      (∀ x, x ∈ pairsOf q ↔ x ∈ pairsOf q2) := by
  have hzero : ∀ q, wrap64 (getV ([] : List (String × Int)) q) =
      getV ([] : List (String × Int)) q := by
    intro q
    show wrap64 0 = 0
    rfl
  obtain ⟨M, hM, hnd, hwM, hget, hmem⟩ := foldSum_ok ps [] (by simp [keysOf]) hzero
  obtain ⟨M2, hM2, hnd2, hwM2, hget2, hmem2⟩ := foldSum_ok ps2 [] (by simp [keysOf]) hzero
  have hget' : ∀ k, getV M k = wrap64 (sumHits k (ps.flatMap Payload.values)) := by
    intro k
    have h0 : getV ([] : List (String × Int)) k = 0 := rfl
    rw [hget k, h0, Int.zero_add]
  have hget2' : ∀ k, getV M2 k = wrap64 (sumHits k (ps2.flatMap Payload.values)) := by
    intro k
    have h0 : getV ([] : List (String × Int)) k = 0 := rfl
    rw [hget2 k, h0, Int.zero_add]
  have hmem' : ∀ k, k ∈ keysOf M ↔ k ∈ (ps.flatMap Payload.values).map Item.value := by
    intro k
    rw [hmem k]
    simp [keysOf]
  have hmem2' : ∀ k, k ∈ keysOf M2 ↔ k ∈ (ps2.flatMap Payload.values).map Item.value := by
    intro k
    rw [hmem2 k]
    simp [keysOf]
  have hflat : (ps.flatMap Payload.values).Perm (ps2.flatMap Payload.values) := by
    rw [List.flatMap_def, List.flatMap_def]
    exact (hperm.map Payload.values).flatten
  refine ⟨⟨mapToItems M⟩, ⟨mapToItems M2⟩, hM, hM2, ?_, ?_, ?_, ?_⟩
  · show ((mapToItems M).map Item.value).Nodup
    rw [mapToItems_value_map]
    exact hnd
  · intro k
    show k ∈ (mapToItems M).map Item.value ↔ _
    rw [mapToItems_value_map]
    exact hmem' k
  · intro it hit
    have hp := (mem_mapToItems M it).mp hit
    rw [← hget' it.value]
    exact (getV_of_mem M it.value it.hits hnd hp).symm
  · intro x
    obtain ⟨k, v⟩ := x
    rw [pairsOf_mapToItems, pairsOf_mapToItems,
      pair_mem_char M ((ps.flatMap Payload.values).map Item.value)
        (fun k => wrap64 (sumHits k (ps.flatMap Payload.values))) hnd hget' hmem' k v,
      pair_mem_char M2 ((ps2.flatMap Payload.values).map Item.value)
        (fun k => wrap64 (sumHits k (ps2.flatMap Payload.values))) hnd2 hget2' hmem2' k v,
      (hflat.map Item.value).mem_iff, sumHits_perm k hflat]

/-- C3 witness: merging the shard payload with value A and 23 hits with
itself yields the single entry A with 46 hits (no overflow, so the wrapped
sum is the plain sum). -/
theorem c3_witness :
    (∃ q q2,
      mergeData ([⟨[⟨23, "A"⟩]⟩, ⟨[⟨23, "A"⟩]⟩].map .enc) .JSON .Sum = .ok (.enc q) ∧
      mergeData ([⟨[⟨23, "A"⟩]⟩, ⟨[⟨23, "A"⟩]⟩].map .enc) .JSON .Sum = .ok (.enc q2) ∧
      (q.values.map Item.value).Nodup ∧
      (∀ k, k ∈ q.values.map Item.value ↔
        k ∈ (([⟨[⟨23, "A"⟩]⟩, ⟨[⟨23, "A"⟩]⟩] : List Payload).flatMap Payload.values).map
          Item.value) ∧
      (∀ it ∈ q.values, it.hits =
        wrap64 (sumHits it.value
          (([⟨[⟨23, "A"⟩]⟩, ⟨[⟨23, "A"⟩]⟩] : List Payload).flatMap Payload.values))) ∧
      (∀ x, x ∈ pairsOf q ↔ x ∈ pairsOf q2)) ∧
    mergeData ([⟨[⟨23, "A"⟩]⟩, ⟨[⟨23, "A"⟩]⟩].map .enc) .JSON .Sum =
      .ok (.enc ⟨[⟨46, "A"⟩]⟩) :=
  ⟨c3_sum_merge [⟨[⟨23, "A"⟩]⟩, ⟨[⟨23, "A"⟩]⟩] [⟨[⟨23, "A"⟩]⟩, ⟨[⟨23, "A"⟩]⟩]
    (List.Perm.refl _), rfl⟩

theorem foldSum_err (data : List Bytes) :
    ∀ acc : Bytes, (∃ b ∈ data, ∃ msg, decodePayload b = .error msg) →
      ∃ e, foldMergeJSON .Sum data acc = .error e := by
  induction data with
  | nil =>
    intro acc h
    simp at h
  | cons b rest ih =>
    intro acc h
    cases hacc : acc with
    | raw s =>
      refine ⟨"json merge failed: " ++ ("unmarshal a: " ++ ("invalid payload: " ++ s)), ?_⟩
      rfl
    | enc pa =>
      cases hb : b with
      | raw s =>
        refine ⟨"json merge failed: " ++ ("unmarshal b: " ++ ("invalid payload: " ++ s)), ?_⟩
        rfl
      | enc pb =>
        have hrest : ∃ b2 ∈ rest, ∃ msg, decodePayload b2 = .error msg := by
          obtain ⟨b2, hb2, msg, hmsg⟩ := h
          rcases List.mem_cons.mp hb2 with h2 | h2
          · rw [h2, hb] at hmsg
            exact absurd hmsg (by simp [decodePayload])
          · exact ⟨b2, h2, msg, hmsg⟩
        obtain ⟨e, he⟩ := ih (.enc ⟨mapToItems (buildMap pb.values (buildMap pa.values []))⟩) hrest
        exact ⟨e, he⟩

/-- C4: if any payload in the list does not decode as the expected
`values`/`value`/`hits` shape, mergeData with strategy Sum returns an
error and never a merged result: the malformed payload is not silently
ignored and no partial sum is produced. -/
theorem c4_sum_merge_bad_payload (data : List Bytes)
    (h : ∃ b ∈ data, ∃ msg, decodePayload b = .error msg) :
    ∃ e, mergeData data .JSON .Sum = .error e ∧
      ∀ m, mergeData data .JSON .Sum ≠ .ok m := by
  obtain ⟨e, he⟩ := foldSum_err data (.enc ⟨[]⟩) h
  have hm : mergeData data .JSON .Sum = .error e := he
  exact ⟨e, hm, fun m hok => by rw [hm] at hok; exact Except.noConfusion hok⟩

/-- C4 witness: a well-formed shard followed by the bytes `foo` makes the
Sum merge fail. -/
theorem c4_witness :
    ∃ e, mergeData [.enc ⟨[⟨7, "A"⟩]⟩, .raw "foo"] .JSON .Sum = .error e ∧
      ∀ m, mergeData [.enc ⟨[⟨7, "A"⟩]⟩, .raw "foo"] .JSON .Sum ≠ .ok m :=
  c4_sum_merge_bad_payload [.enc ⟨[⟨7, "A"⟩]⟩, .raw "foo"]
    ⟨.raw "foo", by simp, "invalid payload: foo", rfl⟩

/-- C9: under format NDJSON the merge strategy argument has no effect: the
NDJSON branch of mergeData never consults it, so a route configured with
Merge and one configured with Sum produce identical output, and the whole
handler behaves identically too. -/
theorem c9_ndjson_strategy_irrelevant (data : List Bytes) (s1 s2 : MergeStrategy) :
    mergeData data .NDJSON s1 = mergeData data .NDJSON s2 ∧
    ∀ endpoints net,
      makeJSONHandler .NDJSON s1 endpoints net = makeJSONHandler .NDJSON s2 endpoints net := by
  refine ⟨rfl, ?_⟩
  intro endpoints net
  rw [makeJSONHandler, makeJSONHandler, handlerWith, handlerWith]
  cases getEndpointData endpoints net with
  | error e => rfl
  | ok d => rfl

end Vlms
